import Mathlib

/-!
Verification of the Monte Carlo GBM stock simulator
(`monte_carlo.py`: `simulate_price_paths`, `get_price_statistics`,
`time_to_target`; `app.py`: the Sharpe-ratio computation).

Modelling choices:
* numpy float64 values are modelled as real numbers (`ℝ`);
* the path matrix is a list of rows (`List (List ℝ)`), row index =
  elapsed day, column index = simulation trial;
* the random source `np.random.standard_normal` is an explicit injected
  function `z : ℕ → ℕ → ℝ`, where `z t j` is the standard-normal draw
  consumed at loop iteration `t` for column `j` (the source draws one
  batch of `sims` variates per day);
* the vectorised statement `paths[t] = paths[t-1] * np.exp(...)` acts
  elementwise per column, so each column `j` follows the scalar
  recurrence `price j`, and row `t` of the matrix is
  `[price 0 t, ..., price (sims-1) t]`;
* `np.zeros((days, sims))` raises `ValueError` for a negative dimension
  and the assignment `paths[0] = S0` raises `IndexError` when `days = 0`;
  the wrapper `simulate_price_paths_checked` returns `none` exactly in
  those cases (every other call runs to completion and returns a matrix).
-/

namespace MonteCarlo

abbrev Matrix := List (List ℝ)

/-- Entry of a path matrix at row `t`, column `j` (0 outside the grid). -/
def entry (m : Matrix) (t j : ℕ) : ℝ := (m.getD t []).getD j 0

/-- The unit time step of the source: `dt = 1  # daily steps`. -/
def dt : ℝ := 1

/-- Python truthiness test of the shock guard
`if shock_day and t == shock_day - 1`: `None` and `0` are falsy, any
other `shock_day` fires exactly at loop index `t = shock_day - 1`. -/
def shockHits (shock_day : Option ℤ) (t : ℕ) : Bool :=
  match shock_day with
  | none => false
  | some d => decide (d ≠ 0) && decide ((t : ℤ) = d - 1)

/-- Price of column `j` after `t` loop iterations of
`simulate_price_paths`: row 0 is `S0`; iteration `t+1` performs the GBM
step `paths[t] = paths[t-1] * np.exp((mu - 0.5*sigma**2)*dt +
sigma*np.sqrt(dt)*z)` on the column entry and then, when the shock guard
fires, the in-place scaling `paths[t] *= (1 + shock_size / 100)`. -/
noncomputable def price (S0 mu sigma shock_size : ℝ) (shock_day : Option ℤ)
    (z : ℕ → ℕ → ℝ) (j : ℕ) : ℕ → ℝ
  | 0 => S0
  | t + 1 =>
    if shockHits shock_day (t + 1) then
      price S0 mu sigma shock_size shock_day z j t *
        Real.exp ((mu - 0.5 * sigma ^ 2) * dt + sigma * Real.sqrt dt * z (t + 1) j) *
        (1 + shock_size / 100)
    else
      price S0 mu sigma shock_size shock_day z j t *
        Real.exp ((mu - 0.5 * sigma ^ 2) * dt + sigma * Real.sqrt dt * z (t + 1) j)

/-- `simulate_price_paths(S0, mu, sigma, days, sims, shock_size,
shock_day)` with the random source made explicit: the `days × sims`
matrix whose row `t` holds the per-column prices after `t` iterations. -/
noncomputable def simulate_price_paths (S0 mu sigma : ℝ) (days sims : ℕ)
    (shock_size : ℝ) (shock_day : Option ℤ) (z : ℕ → ℕ → ℝ) : Matrix :=
  (List.range days).map
    (fun t => (List.range sims).map
      (fun j => price S0 mu sigma shock_size shock_day z j t))

/-- `simulate_price_paths` as actually callable with arbitrary integer
dimensions: `np.zeros((days, sims))` raises for a negative dimension and
`paths[0] = S0` raises when `days = 0`; otherwise the call returns the
matrix.  No other validation exists in the source. -/
noncomputable def simulate_price_paths_checked (S0 mu sigma : ℝ)
    (days sims : ℤ) (shock_size : ℝ) (shock_day : Option ℤ)
    (z : ℕ → ℕ → ℝ) : Option Matrix :=
  if days < 0 ∨ sims < 0 then none
  else if days = 0 then none
  else some (simulate_price_paths S0 mu sigma days.toNat sims.toNat
    shock_size shock_day z)

/-! Basic lemmas about the simulated rows. -/

theorem simulate_row (S0 mu sigma shock_size : ℝ) (shock_day : Option ℤ)
    (z : ℕ → ℕ → ℝ) {days : ℕ} (sims : ℕ) {t : ℕ} (ht : t < days) :
    (simulate_price_paths S0 mu sigma days sims shock_size shock_day z).getD t []
      = (List.range sims).map
          (fun j => price S0 mu sigma shock_size shock_day z j t) := by
  unfold simulate_price_paths
  rw [List.getD_eq_getElem _ _ (by simpa using ht)]
  simp

theorem price_congr_of_no_hit (S0 mu sigma s1 s2 : ℝ) (sd : Option ℤ)
    (z : ℕ → ℕ → ℝ) (j : ℕ) (t : ℕ)
    (h : ∀ u, 1 ≤ u → u ≤ t → shockHits sd u = false) :
    price S0 mu sigma s1 sd z j t = price S0 mu sigma s2 none z j t := by
  induction t with
  | zero => rfl
  | succ t ih =>
    have hstep := h (t + 1) (Nat.le_add_left 1 t) le_rfl
    have ihe : price S0 mu sigma s1 sd z j t = price S0 mu sigma s2 none z j t :=
      ih (fun u hu1 hu2 => h u hu1 (Nat.le_succ_of_le hu2))
    simp only [price]
    rw [hstep, ihe]
    simp [shockHits]

theorem price_shock_split (S0 mu sigma s : ℝ) (d : ℤ) (z : ℕ → ℕ → ℝ)
    (j : ℕ) (hd : 2 ≤ d) :
    ∀ t : ℕ,
      ((t : ℤ) < d - 1 →
        price S0 mu sigma s (some d) z j t = price S0 mu sigma s none z j t)
      ∧ (d - 1 ≤ (t : ℤ) →
        price S0 mu sigma s (some d) z j t
          = price S0 mu sigma s none z j t * (1 + s / 100)) := by
  intro t
  induction t with
  | zero =>
    exact ⟨fun _ => rfl, fun h => absurd h (by push_cast; omega)⟩
  | succ t ih =>
    rcases lt_trichotomy ((t : ℤ) + 1) (d - 1) with hlt | heq | hgt
    · have hsh : shockHits (some d) (t + 1) = false := by
        simp only [shockHits, Bool.and_eq_false_iff, decide_eq_false_iff_not]
        right
        push_cast
        omega
      refine ⟨fun _ => ?_, fun hge => absurd hge (by push_cast; omega)⟩
      simp only [price]
      rw [hsh, ih.1 (by omega)]
      simp [shockHits]
    · have hsh : shockHits (some d) (t + 1) = true := by
        simp only [shockHits, Bool.and_eq_true, decide_eq_true_eq]
        constructor
        · omega
        · push_cast; omega
      refine ⟨fun hlt2 => absurd hlt2 (by push_cast; omega), fun _ => ?_⟩
      simp only [price]
      rw [hsh, ih.1 (by omega)]
      simp [shockHits]
    · have hsh : shockHits (some d) (t + 1) = false := by
        simp only [shockHits, Bool.and_eq_false_iff, decide_eq_false_iff_not]
        right
        push_cast
        omega
      refine ⟨fun hlt2 => absurd hlt2 (by push_cast; omega), fun _ => ?_⟩
      simp only [price]
      rw [hsh, ih.2 (by omega)]
      simp [shockHits]
      ring

/-- C1 (amended): for a shock day `d` with `2 ≤ d ≤ days` and a fixed
random source, the rows strictly before row `d-1` agree with the
unshocked matrix, and every row from `d-1` on (not only row `d-1`) is
the corresponding unshocked row scaled by `1 + s/100`, because the
scaled row seeds all later GBM steps.  For `d = 1` the guard
`t == shock_day - 1` never fires (the loop starts at `t = 1`), so the
shock is silently dropped and the matrix equals the unshocked one. -/
theorem shock_invariant_amended (S0 mu sigma s : ℝ) (days sims : ℕ)
    (d : ℤ) (z : ℕ → ℕ → ℝ) (h1 : 1 ≤ d) (h2 : d ≤ (days : ℤ)) :
    (d = 1 →
      simulate_price_paths S0 mu sigma days sims s (some d) z
        = simulate_price_paths S0 mu sigma days sims s none z)
    ∧ (2 ≤ d →
      (∀ t : ℕ, (t : ℤ) < d - 1 →
        (simulate_price_paths S0 mu sigma days sims s (some d) z).getD t []
          = (simulate_price_paths S0 mu sigma days sims s none z).getD t [])
      ∧ (∀ t : ℕ, d - 1 ≤ (t : ℤ) → t < days →
        (simulate_price_paths S0 mu sigma days sims s (some d) z).getD t []
          = ((simulate_price_paths S0 mu sigma days sims s none z).getD t []).map
              (fun p => p * (1 + s / 100)))) := by
  constructor
  · intro hd1
    subst hd1
    unfold simulate_price_paths
    refine List.map_congr_left (fun t _ => ?_)
    refine List.map_congr_left (fun j _ => ?_)
    refine price_congr_of_no_hit S0 mu sigma s s (some 1) z j t (fun u hu1 _ => ?_)
    simp only [shockHits, Bool.and_eq_false_iff, decide_eq_false_iff_not]
    right
    omega
  · intro hd2
    constructor
    · intro t ht
      by_cases htd : t < days
      · rw [simulate_row _ _ _ _ _ _ _ htd, simulate_row _ _ _ _ _ _ _ htd]
        exact List.map_congr_left
          (fun j _ => (price_shock_split S0 mu sigma s d z j hd2 t).1 ht)
      · have hlen1 : (simulate_price_paths S0 mu sigma days sims s (some d) z).length
            = days := by simp [simulate_price_paths]
        have hlen2 : (simulate_price_paths S0 mu sigma days sims s none z).length
            = days := by simp [simulate_price_paths]
        rw [List.getD_eq_default _ _ (by omega), List.getD_eq_default _ _ (by omega)]
    · intro t ht htd
      rw [simulate_row _ _ _ _ _ _ _ htd, simulate_row _ _ _ _ _ _ _ htd, List.map_map]
      exact List.map_congr_left
        (fun j _ => (price_shock_split S0 mu sigma s d z j hd2 t).2 ht)

/-- C1 witness: with `S0 = 1, mu = sigma = 0, days = 2, sims = 1,
s = 50, d = 2` and the zero random source, row 1 of the shocked matrix
is the unshocked row 1 scaled by `1 + 50/100`. -/
theorem shock_invariant_amended_witness :
    (simulate_price_paths 1 0 0 2 1 50 (some 2) (fun _ _ => 0)).getD 1 []
      = ((simulate_price_paths 1 0 0 2 1 50 none (fun _ _ => 0)).getD 1 []).map
          (fun p => p * (1 + 50 / 100)) :=
  ((shock_invariant_amended 1 0 0 50 2 1 2 (fun _ _ => 0) (by norm_num)
    (by norm_num)).2 (by norm_num)).2 1 (by norm_num) (by norm_num)

/-- C1 counterexample: the claim fails in two ways on the source.  With
`shockDay = 1` (valid per the claim) the shock is never applied: row 0
of the shocked matrix equals `1`, not `1 · (1 + 100/100) = 2`.  And with
`shockDay = 2, days = 3`, row 2 of the shocked matrix (value 2) differs
from unshocked row 2 (value 1), so the matrices do not agree outside row
`d-1`. -/
theorem shock_invariant_counterexample :
    (entry (simulate_price_paths 1 0 0 2 1 100 (some 1) (fun _ _ => 0)) 0 0
      ≠ entry (simulate_price_paths 1 0 0 2 1 100 none (fun _ _ => 0)) 0 0
          * (1 + 100 / 100))
    ∧ entry (simulate_price_paths 1 0 0 3 1 100 (some 2) (fun _ _ => 0)) 2 0
      ≠ entry (simulate_price_paths 1 0 0 3 1 100 none (fun _ _ => 0)) 2 0 := by
  have hz : ∀ sd : Option ℤ, ∀ j t : ℕ, ∀ s : ℝ,
      price 1 0 0 s sd (fun _ _ => 0) j (t + 1)
        = (if shockHits sd (t + 1) then (1 + s / 100) else 1) *
            price 1 0 0 s sd (fun _ _ => 0) j t := by
    intro sd j t s
    simp only [price, dt, Real.sqrt_one]
    norm_num [Real.exp_zero]
    split <;> ring
  constructor
  · have e1 : entry (simulate_price_paths 1 0 0 2 1 100 (some 1) (fun _ _ => 0)) 0 0
        = 1 := by
      rw [entry, simulate_row _ _ _ _ _ _ _ (by norm_num)]
      simp [price, List.range_succ]
    have e2 : entry (simulate_price_paths 1 0 0 2 1 100 none (fun _ _ => 0)) 0 0
        = 1 := by
      rw [entry, simulate_row _ _ _ _ _ _ _ (by norm_num)]
      simp [price, List.range_succ]
    rw [e1, e2]
    norm_num
  · have e1 : entry (simulate_price_paths 1 0 0 3 1 100 (some 2) (fun _ _ => 0)) 2 0
        = 2 := by
      rw [entry, simulate_row _ _ _ _ _ _ _ (by norm_num)]
      simp only [List.range_succ, List.range_zero]
      simp only [List.nil_append, List.map_cons, List.map_nil, List.getD_cons_zero]
      rw [hz, hz]
      norm_num [shockHits, price]
    have e2 : entry (simulate_price_paths 1 0 0 3 1 100 none (fun _ _ => 0)) 2 0
        = 1 := by
      rw [entry, simulate_row _ _ _ _ _ _ _ (by norm_num)]
      simp only [List.range_succ, List.range_zero]
      simp only [List.nil_append, List.map_cons, List.map_nil, List.getD_cons_zero]
      rw [hz, hz]
      norm_num [shockHits, price]
    rw [e1, e2]
    norm_num

/-- C6: a `shockDay` outside `[1, days]` (zero, negative, or beyond the
horizon) is silently ignored: the run completes (the checked call is
`some`) and the matrix equals the one produced with no shock from the
same draws. -/
theorem shock_out_of_range (S0 mu sigma s : ℝ) (days sims : ℕ) (d : ℤ)
    (z : ℕ → ℕ → ℝ) (hd : d < 1 ∨ (days : ℤ) < d) :
    simulate_price_paths S0 mu sigma days sims s (some d) z
      = simulate_price_paths S0 mu sigma days sims s none z
    ∧ (1 ≤ days →
      (simulate_price_paths_checked S0 mu sigma (days : ℤ) (sims : ℤ) s
        (some d) z).isSome = true) := by
  constructor
  · unfold simulate_price_paths
    refine List.map_congr_left (fun t htr => ?_)
    refine List.map_congr_left (fun j _ => ?_)
    have htd : t < days := List.mem_range.mp htr
    refine price_congr_of_no_hit S0 mu sigma s s (some d) z j t (fun u hu1 hu2 => ?_)
    simp only [shockHits, Bool.and_eq_false_iff, decide_eq_false_iff_not]
    right
    omega
  · intro hdays
    unfold simulate_price_paths_checked
    rw [if_neg (by omega), if_neg (by omega)]
    rfl

/-- C6 witness: with `days = 3` and the out-of-range `shockDay = 7`, the
shocked and unshocked matrices coincide. -/
theorem shock_out_of_range_witness :
    simulate_price_paths 1 0 0 3 1 25 (some 7) (fun _ _ => 0)
      = simulate_price_paths 1 0 0 3 1 25 none (fun _ _ => 0) :=
  (shock_out_of_range 1 0 0 25 3 1 7 (fun _ _ => 0) (by norm_num)).1

/-- C9: the initial row is `S0` in every column whatever `mu`, `sigma`
and the shock parameters are (the shock guard only runs for `t ≥ 1`),
and a one-day simulation is the single row `[S0, ..., S0]` for every
random source (the loop body never executes, so no draw is consumed). -/
theorem initial_row (S0 mu sigma s : ℝ) (sd : Option ℤ) (days sims : ℕ)
    (z : ℕ → ℕ → ℝ) (hdays : 1 ≤ days) :
    (simulate_price_paths S0 mu sigma days sims s sd z).getD 0 []
      = List.replicate sims S0
    ∧ ∀ w : ℕ → ℕ → ℝ,
      simulate_price_paths S0 mu sigma 1 sims s sd w
        = [List.replicate sims S0] := by
  have hrow0 : ∀ w : ℕ → ℕ → ℝ,
      (List.range sims).map (fun j => price S0 mu sigma s sd w j 0)
        = List.replicate sims S0 := by
    intro w
    have : (fun j => price S0 mu sigma s sd w j 0) = fun _ : ℕ => S0 := by
      funext j; rfl
    rw [this]
    simp [List.map_const']
  constructor
  · rw [simulate_row _ _ _ _ _ _ _ hdays]
    exact hrow0 z
  · intro w
    unfold simulate_price_paths
    simp only [List.range_succ, List.range_zero, List.nil_append,
      List.map_cons, List.map_nil, hrow0 w]

/-- C9 witness: instance at `S0 = 2, days = 3, sims = 2`. -/
theorem initial_row_witness :
    (simulate_price_paths 2 0 0 3 2 0 none (fun _ _ => 0)).getD 0 []
      = List.replicate 2 (2 : ℝ) :=
  (initial_row 2 0 0 0 none 3 2 (fun _ _ => 0) (by norm_num)).1

theorem price_sigma_zero_congr (S0 mu s : ℝ) (sd : Option ℤ)
    (z : ℕ → ℕ → ℝ) (j j2 : ℕ) (t : ℕ) :
    price S0 mu 0 s sd z j t = price S0 mu 0 s sd z j2 t := by
  induction t with
  | zero => rfl
  | succ t ih =>
    have harg : ∀ jj : ℕ,
        (mu - 0.5 * (0:ℝ) ^ 2) * dt + 0 * Real.sqrt dt * z (t + 1) jj = mu * dt := by
      intro jj; ring
    simp only [price, harg, ih]

theorem price_drift_free (S0 s : ℝ) (z : ℕ → ℕ → ℝ) (j : ℕ) (t : ℕ) :
    price S0 0 0 s none z j t = S0 := by
  induction t with
  | zero => rfl
  | succ t ih =>
    have harg : ((0:ℝ) - 0.5 * (0:ℝ) ^ 2) * dt + 0 * Real.sqrt dt * z (t + 1) j
        = 0 := by ring
    simp only [price, shockHits, Bool.false_eq_true, if_false, harg,
      Real.exp_zero, mul_one, ih]

/-- C5: with `sigma = 0` and no shock, every pair of columns of the
matrix carries the same value at every row, and in the concrete scenario
`S0 = 100, mu = 0, sigma = 0, days = 5, sims = 3` the matrix is five
rows of `[100, 100, 100]` for every random source. -/
theorem sigma_zero_columns (S0 mu s : ℝ) (days sims : ℕ)
    (z : ℕ → ℕ → ℝ) (sigma : ℝ) (hs : sigma = 0) :
    (∀ t j j2 : ℕ, t < days → j < sims → j2 < sims →
      entry (simulate_price_paths S0 mu sigma days sims s none z) t j
        = entry (simulate_price_paths S0 mu sigma days sims s none z) t j2)
    ∧ ∀ w : ℕ → ℕ → ℝ,
      simulate_price_paths 100 0 0 5 3 0 none w
        = List.replicate 5 (List.replicate 3 (100 : ℝ)) := by
  subst hs
  constructor
  · intro t j j2 ht hj hj2
    unfold entry
    rw [simulate_row _ _ _ _ _ _ _ ht]
    rw [List.getD_eq_getElem _ _ (by simpa using hj),
      List.getD_eq_getElem _ _ (by simpa using hj2)]
    simp only [List.getElem_map, List.getElem_range]
    exact price_sigma_zero_congr _ _ _ _ _ _ _ _
  · intro w
    unfold simulate_price_paths
    have hrow : ∀ t : ℕ,
        (List.range 3).map (fun j => price 100 0 0 0 none w j t)
          = List.replicate 3 (100 : ℝ) := by
      intro t
      have : (fun j : ℕ => price 100 0 0 0 none w j t) = fun _ : ℕ => (100 : ℝ) := by
        funext j; exact price_drift_free 100 0 w j t
      rw [this]
      simp [List.map_const']
    calc (List.range 5).map
          (fun t => (List.range 3).map (fun j => price 100 0 0 0 none w j t))
        = (List.range 5).map (fun _ => List.replicate 3 (100 : ℝ)) :=
          List.map_congr_left (fun t _ => hrow t)
      _ = List.replicate 5 (List.replicate 3 (100 : ℝ)) := by
          simp [List.map_const']

/-- C5 witness: the concrete scenario under the zero random source. -/
theorem sigma_zero_columns_witness :
    simulate_price_paths 100 0 0 5 3 0 none (fun _ _ => 0)
      = List.replicate 5 (List.replicate 3 (100 : ℝ)) :=
  (sigma_zero_columns 100 0 0 5 3 (fun _ _ => 0) 0 rfl).2 (fun _ _ => 0)

theorem price_pos (S0 mu sigma s : ℝ) (sd : Option ℤ) (z : ℕ → ℕ → ℝ)
    (j : ℕ) (hS0 : 0 < S0) (hs : -100 < s) (t : ℕ) :
    0 < price S0 mu sigma s sd z j t := by
  induction t with
  | zero => exact hS0
  | succ t ih =>
    have hf : (0:ℝ) < 1 + s / 100 := by linarith
    have hexp := Real.exp_pos
      ((mu - 0.5 * sigma ^ 2) * dt + sigma * Real.sqrt dt * z (t + 1) j)
    simp only [price]
    split
    · positivity
    · positivity

theorem price_nonpos (S0 mu sigma s : ℝ) (z : ℕ → ℕ → ℝ)
    (j : ℕ) (hS0 : S0 ≤ 0) (t : ℕ) :
    price S0 mu sigma s none z j t ≤ 0 := by
  induction t with
  | zero => exact hS0
  | succ t ih =>
    have hexp := Real.exp_pos
      ((mu - 0.5 * sigma ^ 2) * dt + sigma * Real.sqrt dt * z (t + 1) j)
    simp only [price, shockHits, Bool.false_eq_true, if_false]
    exact mul_nonpos_of_nonpos_of_nonneg ih hexp.le

/-- C3 (amended): for `days ≥ 1`, `sims ≥ 1`, `S0 > 0` the matrix has
exactly `days` rows of `sims` columns each, row 0 is all `S0`, and,
provided the shock factor stays positive (`shockSize > -100`, which
holds for the default `shockSize = 0`), every entry is strictly
positive. -/
theorem shape_day0_positive (S0 mu sigma s : ℝ) (sd : Option ℤ)
    (days sims : ℕ) (z : ℕ → ℕ → ℝ) (hdays : 1 ≤ days) (_hsims : 1 ≤ sims)
    (hS0 : 0 < S0) (hs : -100 < s) :
    (simulate_price_paths S0 mu sigma days sims s sd z).length = days
    ∧ (∀ row ∈ simulate_price_paths S0 mu sigma days sims s sd z,
        row.length = sims)
    ∧ (simulate_price_paths S0 mu sigma days sims s sd z).getD 0 []
        = List.replicate sims S0
    ∧ ∀ row ∈ simulate_price_paths S0 mu sigma days sims s sd z,
        ∀ x ∈ row, 0 < x := by
  refine ⟨by simp [simulate_price_paths], fun row hrow => ?_,
    (initial_row S0 mu sigma s sd days sims z hdays).1, fun row hrow x hx => ?_⟩
  · obtain ⟨t, _, rfl⟩ := List.mem_map.mp hrow
    simp
  · obtain ⟨t, _, rfl⟩ := List.mem_map.mp hrow
    obtain ⟨j, _, rfl⟩ := List.mem_map.mp hx
    exact price_pos S0 mu sigma s sd z j hS0 hs t

/-- C3 witness: instance at `S0 = 1, days = 2, sims = 1`, default
shock. -/
theorem shape_day0_positive_witness :
    (simulate_price_paths 1 0 0 2 1 0 none (fun _ _ => 0)).length = 2 :=
  (shape_day0_positive 1 0 0 0 none 2 1 (fun _ _ => 0) (by norm_num)
    (by norm_num) (by norm_num) (by norm_num)).1

/-- C3 counterexample: the valid input `S0 = 1, mu = sigma = 0,
days = 2, sims = 1` together with `shockSize = -200, shockDay = 2`
produces the entry `-1` at row 1, so not every entry of the matrix is
strictly positive. -/
theorem positivity_counterexample :
    entry (simulate_price_paths 1 0 0 2 1 (-200) (some 2) (fun _ _ => 0)) 1 0
      = -1
    ∧ ¬ (0 < entry
          (simulate_price_paths 1 0 0 2 1 (-200) (some 2) (fun _ _ => 0)) 1 0) := by
  have e1 : entry (simulate_price_paths 1 0 0 2 1 (-200) (some 2) (fun _ _ => 0)) 1 0
      = -1 := by
    rw [entry, simulate_row _ _ _ _ _ _ _ (by norm_num)]
    simp only [List.range_succ, List.range_zero, List.nil_append,
      List.map_cons, List.map_nil, List.getD_cons_zero]
    simp only [price, shockHits, dt, Real.sqrt_one]
    norm_num [Real.exp_zero]
  exact ⟨e1, by rw [e1]; norm_num⟩

/-- C2 (amended): the source performs no precondition validation.  The
call fails (models an exception) exactly when `days ≤ 0` or `sims < 0`
(`np.zeros` rejects negative dimensions, `paths[0] = S0` rejects zero
rows); in particular `sims = 0` and `S0 ≤ 0` are accepted silently, and
with `S0 ≤ 0` every entry of the returned matrix is non-positive
garbage. -/
theorem precondition_behavior (S0 mu sigma s : ℝ) (days sims : ℤ)
    (z : ℕ → ℕ → ℝ) :
    (simulate_price_paths_checked S0 mu sigma days sims s none z = none
      ↔ days ≤ 0 ∨ sims < 0)
    ∧ (S0 ≤ 0 →
      ∀ M, simulate_price_paths_checked S0 mu sigma days sims s none z = some M →
        ∀ t j : ℕ, t < days.toNat → j < sims.toNat → entry M t j ≤ 0) := by
  constructor
  · unfold simulate_price_paths_checked
    split
    · simp only [true_iff]
      omega
    · split
      · simp only [true_iff]
        omega
      · simp only [reduceCtorEq, false_iff]
        omega
  · intro hS0 M hM t j ht hj
    have hMval : M = simulate_price_paths S0 mu sigma days.toNat sims.toNat
        s none z := by
      unfold simulate_price_paths_checked at hM
      rw [if_neg (by omega), if_neg (by omega)] at hM
      exact (Option.some.injEq _ _ ▸ hM).symm
    subst hMval
    rw [entry, simulate_row _ _ _ _ _ _ _ ht,
      List.getD_eq_getElem _ _ (by simpa using hj)]
    simp only [List.getElem_map, List.getElem_range]
    exact price_nonpos S0 mu sigma s z _ hS0 t

/-- C2 witness: the invalid call `S0 = -5, days = 2, sims = 1` returns a
matrix whose entry at `(0, 0)` is non-positive instead of failing. -/
theorem precondition_behavior_witness :
    entry (simulate_price_paths (-5) 0 0 2 1 0 none (fun _ _ => 0)) 0 0 ≤ 0 :=
  (precondition_behavior (-5) 0 0 0 2 1 (fun _ _ => 0)).2 (by norm_num)
    (simulate_price_paths (-5) 0 0 2 1 0 none (fun _ _ => 0))
    (by unfold simulate_price_paths_checked
        rw [if_neg (by omega), if_neg (by omega)]
        rfl)
    0 0 (by norm_num) (by norm_num)

/-- C2 counterexample: the invalid calls `S0 = -5` (with
`days = 2, sims = 1`) and `sims = 0` (with `S0 = 100, days = 2`) do not
fail: the first returns the matrix `[[-5], [-5]]`, whose entries are
negative garbage prices, and the second silently returns a `2 × 0`
matrix. -/
theorem precondition_counterexample :
    simulate_price_paths_checked (-5) 0 0 2 1 0 none (fun _ _ => 0)
      = some [[-5], [-5]]
    ∧ simulate_price_paths_checked 100 0 0 2 0 0 none (fun _ _ => 0)
      = some [[], []] := by
  constructor
  · unfold simulate_price_paths_checked
    rw [if_neg (by omega), if_neg (by omega)]
    refine congrArg some ?_
    unfold simulate_price_paths
    have ht2 : ((2:ℤ)).toNat = 2 := rfl
    rw [ht2]
    norm_num [List.range_succ, price, shockHits, dt,
      Real.sqrt_one, Real.exp_zero]
  · unfold simulate_price_paths_checked
    rw [if_neg (by omega), if_neg (by omega)]
    refine congrArg some ?_
    unfold simulate_price_paths
    have ht2 : ((2:ℤ)).toNat = 2 := rfl
    rw [ht2]
    norm_num [List.range_succ]

/-- `paths.shape[1]`: the number of columns of the matrix (length of
its first row; every matrix built by the simulator is rectangular). -/
def numCols (m : Matrix) : ℕ := (m.headD []).length

/-- The column slice `paths[:, j]`. -/
def column (m : Matrix) (j : ℕ) : List ℝ := m.map (fun row => row.getD j 0)

/-- `time_to_target(paths, target)`: for each column `j` in order,
`np.where(paths[:, sim] >= target)[0]` lists the indices of the rows
reaching the target; when it is non-empty its first element is appended
to the result. -/
noncomputable def time_to_target (m : Matrix) (target : ℝ) : List ℕ :=
  (List.range (numCols m)).filterMap
    (fun j => (column m j).findIdx? (fun x => decide (target ≤ x)))

open Classical in
/-- Modelled from the spec wording for comparison with the source scan:
the least row index of the column whose price reaches the target, if
any row does. -/
noncomputable def firstHitSpec (col : List ℝ) (target : ℝ) : Option ℕ :=
  if h : ∃ i, i < col.length ∧ target ≤ col.getD i 0 then some (Nat.find h)
  else none

theorem findIdx?_eq_firstHitSpec (col : List ℝ) (target : ℝ) :
    col.findIdx? (fun x => decide (target ≤ x)) = firstHitSpec col target := by
  unfold firstHitSpec
  split
  · rename_i h
    have hfind := Nat.find_spec h
    rw [List.findIdx?_eq_some_iff_getElem]
    refine ⟨hfind.1, ?_, ?_⟩
    · rw [decide_eq_true_eq, ← List.getD_eq_getElem _ 0 hfind.1]
      exact hfind.2
    · intro k hk
      have hmin := Nat.find_min h hk
      have hklen : k < col.length := lt_trans hk hfind.1
      rw [decide_eq_true_eq, ← List.getD_eq_getElem _ 0 hklen]
      intro hcon
      exact hmin ⟨hklen, hcon⟩
  · rename_i h
    rw [List.findIdx?_eq_none_iff]
    intro x hx
    obtain ⟨i, hi, rfl⟩ := List.mem_iff_getElem.mp hx
    rw [decide_eq_false_iff_not]
    intro hcon
    exact h ⟨i, hi, by rwa [List.getD_eq_getElem _ 0 hi]⟩

/-- C4: the hit-day list is exactly the columns in order `0..sims-1`,
each hitting column contributing the least row index whose price
reaches the target and each non-hitting column contributing nothing;
on the single-column matrix with rows `[100, 90, 110, 120]` and target
`105` the result is `[2]`. -/
theorem time_to_target_spec (m : Matrix) (target : ℝ) :
    time_to_target m target
      = (List.range (numCols m)).filterMap
          (fun j => firstHitSpec (column m j) target)
    ∧ time_to_target [[100], [90], [110], [120]] 105 = [2] := by
  constructor
  · unfold time_to_target
    have hfun : (fun j => (column m j).findIdx? (fun x => decide (target ≤ x)))
        = fun j => firstHitSpec (column m j) target := by
      funext j
      exact findIdx?_eq_firstHitSpec _ _
    rw [hfun]
  · unfold time_to_target numCols column
    norm_num [List.range_succ, List.filterMap_cons, List.findIdx?_cons]

/-- `np.mean`: the arithmetic mean of a 1-D slice. -/
noncomputable def np_mean (xs : List ℝ) : ℝ := xs.sum / xs.length

/-- `np.std` (population standard deviation, `ddof = 0`): square root
of the mean squared deviation from the mean. -/
noncomputable def np_std (xs : List ℝ) : ℝ :=
  Real.sqrt (np_mean (xs.map (fun x => (x - np_mean xs) ^ 2)))

open Classical in
/-- The Sharpe-ratio computation of `app.py`:
`sim_returns.mean() / sim_returns.std() if sim_returns.std() != 0 else 0`. -/
noncomputable def sharpe_ratio (simReturns : List ℝ) : ℝ :=
  if np_std simReturns ≠ 0 then np_mean simReturns / np_std simReturns else 0

/-- C8: the Sharpe ratio is `mean / std` whenever the population
standard deviation of the simulated returns is nonzero, and is defined
to be exactly `0` when the standard deviation vanishes, so a
zero-variance return set produces `0` rather than an arithmetic
fault. -/
theorem sharpe_ratio_spec (simReturns : List ℝ) :
    (np_std simReturns ≠ 0 →
      sharpe_ratio simReturns = np_mean simReturns / np_std simReturns)
    ∧ (np_std simReturns = 0 → sharpe_ratio simReturns = 0) := by
  unfold sharpe_ratio
  constructor
  · intro h
    rw [if_pos h]
  · intro h
    rw [if_neg (by simpa using h)]

/-- C8 witness: the zero-variance return set `[5, 5]` yields Sharpe
ratio `0`. -/
theorem sharpe_ratio_spec_witness : sharpe_ratio [5, 5] = 0 :=
  (sharpe_ratio_spec [5, 5]).2 (by
    unfold np_std np_mean
    norm_num)

/-- The ascending sorted copy that `np.median` / `np.percentile` make
of the slice. -/
noncomputable def npSorted (xs : List ℝ) : List ℝ :=
  xs.mergeSort (fun a b => decide (a ≤ b))

/-- Linear interpolation between order statistics at fractional
position `pos`, as `np.percentile` computes it: with `k = ⌊pos⌋` and
`g = pos - k`, the value is `s[k] + g * (s[k+1] - s[k])`; the upper
index is clamped to the last position, which only matters when `g = 0`
and the second term vanishes anyway. -/
noncomputable def interpSorted (s : List ℝ) (pos : ℚ) : ℝ :=
  s.getD (⌊pos⌋).toNat 0 +
    ((pos - (⌊pos⌋).toNat : ℚ) : ℝ) *
      (s.getD (min ((⌊pos⌋).toNat + 1) (s.length - 1)) 0
        - s.getD (⌊pos⌋).toNat 0)

/-- `np.percentile(xs, q)` with the default linear interpolation: the
value at fractional position `q/100 * (len(xs) - 1)` of the sorted
slice. -/
noncomputable def np_percentile (q : ℚ) (xs : List ℝ) : ℝ :=
  interpSorted (npSorted xs) (q * ((xs.length : ℚ) - 1) / 100)

/-- `np.median`, which under the default linear interpolation is the
50th percentile (the average of the two middle order statistics for
even length, the middle element for odd length). -/
noncomputable def np_median (xs : List ℝ) : ℝ := np_percentile 50 xs

structure PriceStats where
  mean : ℝ
  median : ℝ
  p5 : ℝ
  p95 : ℝ

/-- `get_price_statistics(paths)`: mean, median and 5% / 95%
percentiles of the final slice `paths[-1]`. -/
noncomputable def get_price_statistics (m : Matrix) : PriceStats :=
  { mean := np_mean (m.getLastD [])
    median := np_median (m.getLastD [])
    p5 := np_percentile 5 (m.getLastD [])
    p95 := np_percentile 95 (m.getLastD []) }

/-- `min` of a non-empty slice (`0` for the empty slice, which the
source never queries). -/
def listMin : List ℝ → ℝ
  | [] => 0
  | x :: t => t.foldl min x

/-- `max` of a non-empty slice. -/
def listMax : List ℝ → ℝ
  | [] => 0
  | x :: t => t.foldl max x

theorem foldl_min_le (t : List ℝ) (a : ℝ) :
    t.foldl min a ≤ a ∧ ∀ x ∈ t, t.foldl min a ≤ x := by
  induction t generalizing a with
  | nil => exact ⟨le_rfl, by simp⟩
  | cons b tb ih =>
    have hba := ih (min a b)
    refine ⟨hba.1.trans (min_le_left a b), fun x hx => ?_⟩
    rcases List.mem_cons.mp hx with rfl | hx2
    · exact hba.1.trans (min_le_right a x)
    · exact hba.2 x hx2

theorem le_foldl_max (t : List ℝ) (a : ℝ) :
    a ≤ t.foldl max a ∧ ∀ x ∈ t, x ≤ t.foldl max a := by
  induction t generalizing a with
  | nil => exact ⟨le_rfl, by simp⟩
  | cons b tb ih =>
    have hba := ih (max a b)
    refine ⟨(le_max_left a b).trans hba.1, fun x hx => ?_⟩
    rcases List.mem_cons.mp hx with rfl | hx2
    · exact (le_max_right a x).trans hba.1
    · exact hba.2 x hx2

theorem listMin_le_of_mem {x : ℝ} {l : List ℝ} (h : x ∈ l) :
    listMin l ≤ x := by
  match l with
  | a :: t =>
    rcases List.mem_cons.mp h with rfl | hx
    · exact (foldl_min_le t x).1
    · exact (foldl_min_le t a).2 x hx

theorem le_listMax_of_mem {x : ℝ} {l : List ℝ} (h : x ∈ l) :
    x ≤ listMax l := by
  match l with
  | a :: t =>
    rcases List.mem_cons.mp h with rfl | hx
    · exact (le_foldl_max t x).1
    · exact (le_foldl_max t a).2 x hx

theorem npSorted_perm (xs : List ℝ) : (npSorted xs).Perm xs :=
  List.mergeSort_perm xs _

theorem npSorted_sorted (xs : List ℝ) : (npSorted xs).Sorted (· ≤ ·) := by
  have h := @List.sorted_mergeSort ℝ (fun a b : ℝ => decide (a ≤ b))
    (fun a b c hab hbc => by
      rw [decide_eq_true_eq] at *
      exact le_trans hab hbc)
    (fun a b => by
      rcases le_total a b with h2 | h2 <;> simp [h2])
    xs
  exact h.imp (fun hab => of_decide_eq_true hab)

theorem sorted_getD_mono {s : List ℝ} (hs : s.Sorted (· ≤ ·)) {i j : ℕ}
    (hij : i ≤ j) (hj : j < s.length) : s.getD i 0 ≤ s.getD j 0 := by
  rcases eq_or_lt_of_le hij with rfl | hlt
  · exact le_rfl
  · have hi : i < s.length := lt_trans hlt hj
    rw [List.getD_eq_getElem _ 0 hi, List.getD_eq_getElem _ 0 hj]
    exact List.pairwise_iff_get.mp hs ⟨i, hi⟩ ⟨j, hj⟩ hlt

theorem floor_pos_facts {pos : ℚ} {n : ℕ} (h0 : 0 ≤ pos)
    (h1 : pos ≤ (n : ℚ) - 1) :
    ((⌊pos⌋.toNat : ℚ) ≤ pos ∧ pos - ⌊pos⌋.toNat < 1)
    ∧ ⌊pos⌋.toNat ≤ n - 1 ∧ 1 ≤ n := by
  have hfl : (0 : ℤ) ≤ ⌊pos⌋ := Int.floor_nonneg.mpr h0
  have hcast : ((⌊pos⌋.toNat : ℤ) : ℚ) = ((⌊pos⌋ : ℤ) : ℚ) := by
    exact_mod_cast congrArg (fun z : ℤ => (z : ℚ)) (Int.toNat_of_nonneg hfl)
  have hQ : ((⌊pos⌋.toNat : ℚ)) = ((⌊pos⌋ : ℤ) : ℚ) := by
    exact_mod_cast hcast
  have hub : ⌊pos⌋ ≤ (n : ℤ) - 1 := by
    have := Int.floor_mono h1
    rwa [show ((n : ℚ) - 1) = ((n : ℚ) - ((1 : ℤ) : ℚ)) by norm_num,
      Int.floor_sub_int, Int.floor_natCast] at this
  have hn1 : 1 ≤ n := by
    by_contra hcon
    have : n = 0 := by omega
    subst this
    have : pos ≤ -1 := by simpa using h1
    linarith
  refine ⟨⟨?_, ?_⟩, ?_, hn1⟩
  · rw [hQ]
    exact Int.floor_le pos
  · rw [hQ]
    have := Int.lt_floor_add_one pos
    linarith
  · omega

theorem interpSorted_bracket {s : List ℝ} (hs : s.Sorted (· ≤ ·))
    {pos : ℚ} (h0 : 0 ≤ pos) (h1 : pos ≤ (s.length : ℚ) - 1) :
    s.getD (⌊pos⌋).toNat 0 ≤ interpSorted s pos
    ∧ interpSorted s pos
      ≤ s.getD (min ((⌊pos⌋).toNat + 1) (s.length - 1)) 0 := by
  obtain ⟨⟨hk_le, hg_lt⟩, hk_ub, hn1⟩ := floor_pos_facts h0 h1
  set k := (⌊pos⌋).toNat with hk
  set k2 := min (k + 1) (s.length - 1) with hk2
  have hkk2 : k ≤ k2 := by omega
  have hk2lt : k2 < s.length := by omega
  have hD : s.getD k 0 ≤ s.getD k2 0 := sorted_getD_mono hs hkk2 hk2lt
  have hg0 : (0 : ℝ) ≤ ((pos - (k : ℚ) : ℚ) : ℝ) := by
    have : (0 : ℚ) ≤ pos - (k : ℚ) := by linarith
    exact_mod_cast this
  have hg1 : ((pos - (k : ℚ) : ℚ) : ℝ) ≤ 1 := by
    have : pos - (k : ℚ) ≤ 1 := by linarith
    exact_mod_cast this
  unfold interpSorted
  constructor
  · nlinarith
  · nlinarith

theorem interpSorted_mono {s : List ℝ} (hs : s.Sorted (· ≤ ·))
    {p1 p2 : ℚ} (hp0 : 0 ≤ p1) (hp : p1 ≤ p2)
    (hp1 : p2 ≤ (s.length : ℚ) - 1) :
    interpSorted s p1 ≤ interpSorted s p2 := by
  have hp20 : 0 ≤ p2 := le_trans hp0 hp
  have hp1ub : p1 ≤ (s.length : ℚ) - 1 := le_trans hp hp1
  obtain ⟨⟨hk1_le, hg1_lt⟩, hk1_ub, hn1⟩ := floor_pos_facts hp0 hp1ub
  obtain ⟨⟨hk2_le, hg2_lt⟩, hk2_ub, -⟩ := floor_pos_facts hp20 hp1
  have hkmono : (⌊p1⌋).toNat ≤ (⌊p2⌋).toNat := by
    have := Int.floor_mono hp
    omega
  by_cases heq : (⌊p1⌋).toNat = (⌊p2⌋).toNat
  · set k := (⌊p1⌋).toNat with hk
    have hk2lt : min (k + 1) (s.length - 1) < s.length := by omega
    have hD : s.getD k 0 ≤ s.getD (min (k + 1) (s.length - 1)) 0 :=
      sorted_getD_mono hs (by omega) hk2lt
    have hgmono : ((p1 - (k : ℚ) : ℚ) : ℝ) ≤ ((p2 - (k : ℚ) : ℚ) : ℝ) := by
      have : p1 - (k : ℚ) ≤ p2 - (k : ℚ) := by linarith
      exact_mod_cast this
    have hg0 : (0 : ℝ) ≤ ((p1 - (k : ℚ) : ℚ) : ℝ) := by
      have : (0 : ℚ) ≤ p1 - (k : ℚ) := by linarith
      exact_mod_cast this
    unfold interpSorted
    rw [← heq]
    nlinarith
  · have hlt : (⌊p1⌋).toNat < (⌊p2⌋).toNat := by omega
    have hup : interpSorted s p1
        ≤ s.getD (min ((⌊p1⌋).toNat + 1) (s.length - 1)) 0 :=
      (interpSorted_bracket hs hp0 hp1ub).2
    have hlo : s.getD (⌊p2⌋).toNat 0 ≤ interpSorted s p2 :=
      (interpSorted_bracket hs hp20 hp1).1
    have hmid : s.getD (min ((⌊p1⌋).toNat + 1) (s.length - 1)) 0
        ≤ s.getD (⌊p2⌋).toNat 0 :=
      sorted_getD_mono hs (by omega) (by omega)
    linarith

theorem np_percentile_mono {xs : List ℝ} (h : xs ≠ []) {q1 q2 : ℚ}
    (h0 : 0 ≤ q1) (h12 : q1 ≤ q2) (h100 : q2 ≤ 100) :
    np_percentile q1 xs ≤ np_percentile q2 xs := by
  have hn : 0 < xs.length := List.length_pos.mpr h
  have hnq : (1 : ℚ) ≤ (xs.length : ℚ) := by exact_mod_cast hn
  have hd : (0 : ℚ) ≤ (xs.length : ℚ) - 1 := by linarith
  have hslen : (npSorted xs).length = xs.length := (npSorted_perm xs).length_eq
  refine interpSorted_mono (npSorted_sorted xs) ?_ ?_ ?_
  · positivity
  · have := mul_le_mul_of_nonneg_right h12 hd
    linarith
  · rw [hslen]
    have := mul_le_mul_of_nonneg_right h100 hd
    linarith

theorem np_percentile_between {xs : List ℝ} (h : xs ≠ []) {q : ℚ}
    (h0 : 0 ≤ q) (h100 : q ≤ 100) :
    listMin xs ≤ np_percentile q xs ∧ np_percentile q xs ≤ listMax xs := by
  have hn : 0 < xs.length := List.length_pos.mpr h
  have hnq : (1 : ℚ) ≤ (xs.length : ℚ) := by exact_mod_cast hn
  have hd : (0 : ℚ) ≤ (xs.length : ℚ) - 1 := by linarith
  have hslen : (npSorted xs).length = xs.length := (npSorted_perm xs).length_eq
  have hsor := npSorted_sorted xs
  have hpos0 : (0 : ℚ) ≤ q * ((xs.length : ℚ) - 1) / 100 := by positivity
  have hposub : q * ((xs.length : ℚ) - 1) / 100 ≤ ((npSorted xs).length : ℚ) - 1 := by
    rw [hslen]
    have := mul_le_mul_of_nonneg_right h100 hd
    linarith
  obtain ⟨⟨-, -⟩, hkub, hn1⟩ := floor_pos_facts hpos0 hposub
  obtain ⟨hlo, hhi⟩ := interpSorted_bracket hsor hpos0 hposub
  have hmem : ∀ i : ℕ, i < (npSorted xs).length → (npSorted xs).getD i 0 ∈ xs := by
    intro i hi
    rw [List.getD_eq_getElem _ 0 hi]
    exact (npSorted_perm xs).mem_iff.mp (List.getElem_mem hi)
  constructor
  · have h0k : (npSorted xs).getD 0 0
        ≤ (npSorted xs).getD (⌊q * ((xs.length : ℚ) - 1) / 100⌋).toNat 0 :=
      sorted_getD_mono hsor (Nat.zero_le _) (by omega)
    have := listMin_le_of_mem (hmem 0 (by omega))
    calc listMin xs ≤ (npSorted xs).getD 0 0 := this
      _ ≤ _ := le_trans h0k hlo
  · have hk2 : (npSorted xs).getD
        (min ((⌊q * ((xs.length : ℚ) - 1) / 100⌋).toNat + 1)
          ((npSorted xs).length - 1)) 0
        ≤ (npSorted xs).getD ((npSorted xs).length - 1) 0 :=
      sorted_getD_mono hsor (by omega) (by omega)
    have := le_listMax_of_mem (hmem ((npSorted xs).length - 1) (by omega))
    calc np_percentile q xs
        ≤ (npSorted xs).getD ((npSorted xs).length - 1) 0 := le_trans hhi hk2
      _ ≤ listMax xs := this

theorem np_percentile_singleton (q : ℚ) (x : ℝ) : np_percentile q [x] = x := by
  unfold np_percentile npSorted
  rw [List.mergeSort_singleton]
  norm_num [interpSorted]

/-- C7: the statistics of a non-empty final slice are ordered:
`min ≤ p5 ≤ median ≤ p95 ≤ max`; and when the slice has a single
element (`sims = 1`) the mean, median and both percentiles all equal
that element. -/
theorem statistics_ordering (m : Matrix) (h : m.getLastD [] ≠ []) :
    listMin (m.getLastD []) ≤ (get_price_statistics m).p5
    ∧ (get_price_statistics m).p5 ≤ (get_price_statistics m).median
    ∧ (get_price_statistics m).median ≤ (get_price_statistics m).p95
    ∧ (get_price_statistics m).p95 ≤ listMax (m.getLastD [])
    ∧ ((m.getLastD []).length = 1 →
      (get_price_statistics m).mean = (m.getLastD []).getD 0 0
      ∧ (get_price_statistics m).median = (m.getLastD []).getD 0 0
      ∧ (get_price_statistics m).p5 = (m.getLastD []).getD 0 0
      ∧ (get_price_statistics m).p95 = (m.getLastD []).getD 0 0) := by
  refine ⟨(np_percentile_between h (by norm_num) (by norm_num)).1,
    np_percentile_mono h (by norm_num) (by norm_num) (by norm_num),
    np_percentile_mono h (by norm_num) (by norm_num) (by norm_num),
    (np_percentile_between h (by norm_num) (by norm_num)).2, ?_⟩
  intro h1
  obtain ⟨x, hx⟩ := List.length_eq_one.mp h1
  have hmean : np_mean [x] = x := by
    unfold np_mean
    norm_num
  refine ⟨?_, ?_, ?_, ?_⟩ <;>
    simp only [get_price_statistics, np_median, hx, hmean,
      np_percentile_singleton, List.getD_cons_zero]

/-- C7 witness: instance on the one-row, one-column matrix `[[3]]`. -/
theorem statistics_ordering_witness :
    listMin ([[(3:ℝ)]].getLastD []) ≤ (get_price_statistics [[(3:ℝ)]]).p5 :=
  (statistics_ordering [[(3:ℝ)]] (by simp)).1

/-- Read of the final slice `paths[-1]`, threaded through the array
state: the numpy operation returns the row and leaves the array as it
was. -/
def readLastRow (m : Matrix) : List ℝ × Matrix := (m.getLastD [], m)

/-- Read of the column slice `paths[:, j]`, threaded through the array
state. -/
def readColumn (m : Matrix) (j : ℕ) : List ℝ × Matrix := (column m j, m)

/-- `get_price_statistics` in state-passing form: its single array
operation is the read `paths[-1]`; the statistics are computed from the
returned slice and the array state is passed back unchanged (the source
contains no store into `paths`). -/
noncomputable def get_price_statistics_st (m : Matrix) : PriceStats × Matrix :=
  let fpm := readLastRow m
  ({ mean := np_mean fpm.1
     median := np_median fpm.1
     p5 := np_percentile 5 fpm.1
     p95 := np_percentile 95 fpm.1 }, fpm.2)

/-- `time_to_target` in state-passing form: the loop reads one column
slice per iteration, appends to the local `hit_days` list, and threads
the array state through; no iteration stores into `paths`. -/
noncomputable def time_to_target_st (m : Matrix) (target : ℝ) :
    List ℕ × Matrix :=
  (List.range (numCols m)).foldl
    (fun acc j =>
      let colm := readColumn acc.2 j
      match colm.1.findIdx? (fun x => decide (target ≤ x)) with
      | some i => (acc.1 ++ [i], colm.2)
      | none => (acc.1, colm.2))
    ([], m)

theorem time_to_target_st_foldl (target : ℝ) (l : List ℕ)
    (acc : List ℕ) (m : Matrix) :
    l.foldl
      (fun acc j =>
        let colm := readColumn acc.2 j
        match colm.1.findIdx? (fun x => decide (target ≤ x)) with
        | some i => (acc.1 ++ [i], colm.2)
        | none => (acc.1, colm.2))
      (acc, m)
    = (acc ++ l.filterMap
        (fun j => (column m j).findIdx? (fun x => decide (target ≤ x))), m) := by
  induction l generalizing acc with
  | nil => simp
  | cons j l ih =>
    rw [List.foldl_cons, List.filterMap_cons]
    rcases hfi : (column m j).findIdx? (fun x => decide (target ≤ x)) with - | i
    · simpa [readColumn, hfi] using ih acc
    · simpa [readColumn, hfi] using ih (acc ++ [i])

/-- C10: both consumers are read-only.  In the state-passing model,
where every numpy array access is threaded through the matrix state,
`get_price_statistics` and `time_to_target` return the matrix exactly
as it was given to them, and their results agree with the pure
functions. -/
theorem read_only_consumers (m : Matrix) (target : ℝ) :
    (get_price_statistics_st m).2 = m
    ∧ (get_price_statistics_st m).1 = get_price_statistics m
    ∧ (time_to_target_st m target).2 = m
    ∧ (time_to_target_st m target).1 = time_to_target m target := by
  refine ⟨rfl, rfl, ?_, ?_⟩
  · unfold time_to_target_st
    rw [time_to_target_st_foldl]
  · unfold time_to_target_st time_to_target
    rw [time_to_target_st_foldl]
    simp

end MonteCarlo
